import Mathlib

/-!
Verification of `pkg/user/casbin/rbac.go` (devtron casbin enforcer wrapper).

The Go file implements: a path-segment wildcard matcher (`MatchKeyByPart`),
a per-identity result cache keyed by email id, a per-identity lock table,
a batch enforcement routine (`EnforceByEmailInBatch`) that shards the
uncached items across workers, cache invalidation, and single-decision
enforcement with claims-derived identity normalization (`enforce`,
`EnforceErr`).

The embedding below translates each of those functions into Lean.  Maps
(`map[string]...` in Go) are embedded as functions into `Option`; the batch
routine is modelled sequentially (each worker's effect on the shared result
map is applied in shard order, which yields the same final map because each
item's decision depends only on the item).
-/

namespace DevtronCasbin

/-! ## Go strings.Split on "/" (single-character separator) -/

/-- Go `strings.Split(s, "/")` on the character list of `s`:
splitting the empty string yields `[[]]`, and every separator opens a new
(possibly empty) segment. -/
def splitSeg : List Char → List (List Char)
  | [] => [[]]
  | c :: rest =>
    if c = '/' then [] :: splitSeg rest
    else
      match splitSeg rest with
      | [] => [[c]]
      | s :: ss => (c :: s) :: ss

theorem splitSeg_ne_nil (l : List Char) : splitSeg l ≠ [] := by
  induction l with
  | nil => simp [splitSeg]
  | cons c rest ih =>
    by_cases h : c = '/'
    · simp [splitSeg, h]
    · simp only [splitSeg, if_neg h]
      cases splitSeg rest with
      | nil => simp
      | cons s ss => simp

/-! ## MatchKeyByPart (rbac.go lines 316-358) -/

/-- The per-segment check in the loop body of `MatchKeyByPart`:
empty segments fail; otherwise the position `j` of the first `*` in the
pattern segment decides between exact equality, prefix equality, and
equality with the pattern's prefix before the wildcard. -/
def matchSegment (key1Val key2Val : List Char) : Bool :=
  if key2Val = [] ∨ key1Val = [] then false
  else
    match key2Val.findIdx? (fun c => c = '*') with
    | none => key1Val = key2Val
    | some j =>
      if key1Val.length > j then key1Val.take j = key2Val.take j
      else key1Val = key2Val.take j

/-- Go `MatchKeyByPart(key1, key2)`: `"*"` matches everything; otherwise
split both keys on `/`, require equally many (and at least one) segments,
and check every segment pair with `matchSegment`. -/
def MatchKeyByPart (key1 key2 : String) : Bool :=
  if key2 = "*" then true
  else
    let key1Vals := splitSeg key1.toList
    let key2Vals := splitSeg key2.toList
    if key1Vals.length ≠ key2Vals.length ∨ key1Vals.length = 0 then false
    else (key1Vals.zip key2Vals).all fun pq => matchSegment pq.1 pq.2

/-- The per-segment condition exactly as the specification sentence states
it: locate the first `*` of the pattern segment `q`; with no wildcard the
segments must be equal; with the wildcard at index `j` and `len p > j` the
prefixes of length `j` must agree; otherwise `p` must equal `q`'s prefix of
length `j`. -/
def specSegOk (p q : List Char) : Prop :=
  match q.findIdx? (fun c => c = '*') with
  | none => p = q
  | some j =>
    if p.length > j then p.take j = q.take j
    else p = q.take j

/-- The matcher contract exactly as the specification describes it:
the pattern is `"*"`, or the two keys split on `/` into equally many
segments, no segment on either side is empty, and every segment pair at the
same position satisfies `specSegOk`. -/
def matchKeyByPartSpec (path pattern : String) : Prop :=
  pattern = "*" ∨
  ((splitSeg path.toList).length = (splitSeg pattern.toList).length ∧
   (∀ s ∈ splitSeg path.toList, s ≠ []) ∧
   (∀ s ∈ splitSeg pattern.toList, s ≠ []) ∧
   ∀ i (h1 : i < (splitSeg path.toList).length)
       (h2 : i < (splitSeg pattern.toList).length),
     specSegOk ((splitSeg path.toList).get ⟨i, h1⟩)
       ((splitSeg pattern.toList).get ⟨i, h2⟩))

/-! ## Cache model (rbac.go lines 220-251)

`go-cache` stores, per email id, a value of type
`map[string]map[string]bool` from cache key `resource + "$$" + action` to
the per-item decision map.  `Option CacheMap` is `nil`-able: `none` models
the disabled cache. TTL bookkeeping (the refresh `Set` on read) has no
observable effect on the values and is not modelled. -/

/-- Go `map[string]bool`: the per-item decision map. -/
abbrev ItemMap := String → Option Bool

/-- Go `map[string]map[string]bool`: one email's cached decisions, keyed by
`getCacheKey resource action`. -/
abbrev EmailCacheVal := String → Option ItemMap

/-- The whole cache: email id to that email's cached decisions. -/
abbrev CacheMap := String → Option EmailCacheVal

/-- Go `getCacheKey(resource, action)`. -/
def getCacheKey (resource action : String) : String :=
  resource ++ "$$" ++ action

/-- Go `getLockKey(emailId)`: the lock-table key is the email id verbatim. -/
def getLockKey (emailId : String) : String := emailId

/-- Go `getCacheData`: `nil` when the cache is disabled, when the email has
no entry, or when the email's entry has nothing under the cache key. -/
def getCacheData (c : Option CacheMap) (emailId resource action : String) :
    Option ItemMap :=
  match c with
  | none => none
  | some cm =>
    match cm emailId with
    | none => none
    | some em => em (getCacheKey resource action)

/-- Go `storeCacheData`: a no-op on the disabled cache; otherwise write
`result` under the cache key inside the email's entry (created empty when
absent) and store the entry back under the email id. -/
def storeCacheData (c : Option CacheMap) (emailId resource action : String)
    (result : ItemMap) : Option CacheMap :=
  match c with
  | none => none
  | some cm =>
    let em : EmailCacheVal :=
      match cm emailId with
      | none => fun _ => none
      | some em => em
    some fun k =>
      if k = emailId then
        some fun ck =>
          if ck = getCacheKey resource action then some result else em ck
      else cm k

/-! ## Lock table (rbac.go lines 206-218) -/

/-- Go `map[string]*sync.Mutex`, abstracted to which keys hold a handle. -/
abbrev LockTable := String → Bool

/-- Go `getEnforcerCacheLock`: ensure a handle exists under
`getLockKey emailId` (created lazily when absent). -/
def getEnforcerCacheLock (t : LockTable) (emailId : String) : LockTable :=
  fun k => if k = getLockKey emailId then true else t k

/-- Go `clearCacheLock`: unlock and unconditionally delete the handle under
`getLockKey emailId`. -/
def clearCacheLock (t : LockTable) (emailId : String) : LockTable :=
  fun k => if k = getLockKey emailId then false else t k

/-- The lock table's net change across one sequential
`EnforceByEmailInBatch` or `InvalidateCache` call: acquire (lazily
creating) then clear. -/
def batchLockEffect (t : LockTable) (emailId : String) : LockTable :=
  clearCacheLock (getEnforcerCacheLock t emailId) emailId

/-! ## Batch evaluation (rbac.go lines 116-204) -/

/-- One decision map update, `result[item] = v`. -/
def updateItem (m : ItemMap) (item : String) (v : Bool) : ItemMap :=
  fun x => if x = item then some v else m x

/-- Go `EnforceByEmailInBatchSync` restricted to its effect on the shared
result map: for each item of the worker's slice, record
`e.EnforceByEmail(strings.ToLower(emailId), resource, action, item)`. -/
def enforceByEmailInBatchSync (enf : String → String → String → String → Bool)
    (emailId resource action : String) (shard : List String) (m : ItemMap) :
    ItemMap :=
  shard.foldl (fun acc item =>
    updateItem acc item (enf emailId.toLower resource action item)) m

/-- Go's clamp `if batchSize > totalSize { batchSize = totalSize }`. -/
def clampBatchSize (batchSize totalSize : Nat) : Nat :=
  if batchSize > totalSize then totalSize else batchSize

/-- Go `startIndex := i * totalSize / batchSize` (rbac.go line 176). -/
def shardStart (total n i : Nat) : Nat := i * total / n

/-- Go `endIndex := startIndex + totalSize/batchSize`, clamped to `totalSize`
(rbac.go lines 177-180). -/
def shardEnd (total n i : Nat) : Nat :=
  min (shardStart total n i + total / n) total

/-- Index `k` lies in shard `i`'s half-open range. -/
def inShard (total n i k : Nat) : Prop :=
  shardStart total n i ≤ k ∧ k < shardEnd total n i

/-- The slice `vals[startIndex:endIndex]` handed to worker `i`. -/
def shardSlice (vals : List String) (n i : Nat) : List String :=
  (vals.drop (shardStart vals.length n i)).take
    (shardEnd vals.length n i - shardStart vals.length n i)

/-- The dispatch loop `for i := 0; i < batchSize; i++`, with each worker's
effect on the result map applied in shard order. -/
def runShards (enf : String → String → String → String → Bool)
    (emailId resource action : String) (vals : List String) (n : Nat)
    (m : ItemMap) : ItemMap :=
  (List.range n).foldl (fun acc i =>
    enforceByEmailInBatchSync enf emailId resource action
      (shardSlice vals n i) acc) m

/-- What one `EnforceByEmailInBatch` call yields: the returned map, the
cache afterwards, the number of dispatched workers (the clamped batch
size), and the items left after cache subtraction. -/
structure BatchOutcome where
  result : ItemMap
  cache : Option CacheMap
  dispatched : Nat
  remaining : List String

/-- Go `EnforceByEmailInBatch`: read the cache, filter out the items the
cached map already decides, shard the remainder across
`clampBatchSize batchSize total` workers, merge, and write the merged map
back through the cache. -/
def enforceByEmailInBatch (enf : String → String → String → String → Bool)
    (batchSize : Nat) (c : Option CacheMap)
    (emailId resource action : String) (vals : List String) : BatchOutcome :=
  let cached := getCacheData c emailId resource action
  let base : ItemMap :=
    match cached with
    | none => fun _ => none
    | some m => m
  let remaining : List String :=
    match cached with
    | none => vals
    | some m => vals.filter fun item => (m item).isNone
  let n := clampBatchSize batchSize remaining.length
  let result := runShards enf emailId resource action remaining n base
  { result := result
    cache := storeCacheData c emailId resource action result
    dispatched := n
    remaining := remaining }

/-- Go `strconv.Atoi(os.Getenv("ENFORCER_MAX_BATCH_SIZE"))` handling
(rbac.go lines 138-143): the default batch size (a constant defined outside
this file) is substituted exactly when parsing fails. -/
def resolveBatchSize (parsed : Option Nat) (defaultSize : Nat) : Nat :=
  match parsed with
  | none => defaultSize
  | some v => v

/-- The `avgTimegap` guard (rbac.go lines 196-198): the division happens
only under `batchSize > 0` (Go divides two int64 values and converts the
quotient to float; the quotient itself is integer division). -/
def avgTimegapCalc (totalTimeGap : Int) (batchSize : Nat) : Int :=
  if batchSize > 0 then totalTimeGap / (batchSize : Int) else 0

/-- Go `InvalidateCache`: `(false, unchanged)` on the disabled cache,
otherwise delete the email's entry and return true. -/
def invalidateCache (c : Option CacheMap) (emailId : String) :
    Bool × Option CacheMap :=
  match c with
  | none => (false, none)
  | some cm => (true, some fun k => if k = emailId then none else cm k)

/-! ## Single-decision evaluation (rbac.go lines 101-114 and 271-293) -/

/-- The argument list `enforce` hands to the policy engine, or `none` when
the engine is never invoked: empty arguments, failed token verification and
failed claims extraction all stop before the engine; on success the first
argument is replaced by the lower-cased email (the fixed identity `admin`
substituted when the email claim is empty and the sub claim is `admin` or
`admin:login`). -/
def enforceEngineArgs {C M : Type} (verifyToken : String → Option C)
    (mapClaims : C → Option M) (getField : M → String → String)
    (rvals : List String) : Option (List String) :=
  match rvals with
  | [] => none
  | r0 :: rest =>
    match verifyToken r0 with
    | none => none
    | some claims =>
      match mapClaims claims with
      | none => none
      | some mc =>
        let email := getField mc "email"
        let sub := getField mc "sub"
        let email :=
          if email = "" ∧ (sub = "admin" ∨ sub = "admin:login") then "admin"
          else email
        some (email.toLower :: rest)

/-- Go `enforce`: false whenever the engine is never reached, otherwise the
engine's verdict on the substituted argument list. -/
def enforce {C M : Type} (verifyToken : String → Option C)
    (mapClaims : C → Option M) (getField : M → String → String)
    (engine : List String → Bool) (rvals : List String) : Bool :=
  match enforceEngineArgs verifyToken mapClaims getField rvals with
  | none => false
  | some args => engine args

/-- Go `EnforceErr`: `none` models the nil error; a denial produces a
permission-denied error whose message joins the string forms of every
argument after the first with `", "` (message `"permission denied"` alone
for an empty argument list). -/
def enforceErr {C M : Type} (verifyToken : String → Option C)
    (mapClaims : C → Option M) (getField : M → String → String)
    (engine : List String → Bool) (rvals : List String) : Option String :=
  if enforce verifyToken mapClaims getField engine rvals then none
  else
    some
      (if rvals.length > 0 then
        "permission denied" ++ ": " ++ String.intercalate ", " (rvals.drop 1)
      else "permission denied")

/-! ## Claim C9: the universal pattern -/

/-- Claim C9: `MatchKeyByPart(path, "*")` returns true for every path,
including the empty string and paths with empty segments, because the
universal-pattern check precedes segment splitting and validation. -/
theorem matchKeyByPart_star (path : String) : MatchKeyByPart path "*" = true := by
  simp [MatchKeyByPart]

/-! ## Claim C7: the lock table after a completed call -/

/-- Claim C7: across one sequential `EnforceByEmailInBatch` or
`InvalidateCache` call the handle is created lazily and deleted
unconditionally on release, so afterwards the lock table holds no handle
for that identity's key, and every other key is untouched. -/
theorem batchLockEffect_clears (t : LockTable) (emailId k : String)
    (hk : k ≠ getLockKey emailId) :
    batchLockEffect t emailId (getLockKey emailId) = false ∧
    batchLockEffect t emailId k = t k := by
  refine ⟨?_, ?_⟩
  · simp [batchLockEffect, clearCacheLock]
  · simp [batchLockEffect, clearCacheLock, getEnforcerCacheLock, hk]

theorem batchLockEffect_clears_witness :
    batchLockEffect (fun _ => true) "alice" (getLockKey "alice") = false ∧
    batchLockEffect (fun _ => true) "alice" "bob" = (fun (_ : String) => true) "bob" :=
  batchLockEffect_clears (fun _ => true) "alice" "bob" (by decide)

/-! ## Claim C6: invalidation -/

/-- Claim C6: `InvalidateCache(emailId)` returns false exactly when the
cache is disabled and true otherwise; it deletes only that identity's
entry (any other identity's entry is unchanged); and the next batch call
for the invalidated identity finds no cached decisions, so its remaining
set is the full requested item set and it dispatches workers for all of
it. -/
theorem invalidateCache_spec (cm : CacheMap) (emailId k resource action : String)
    (enf : String → String → String → String → Bool) (b : Nat)
    (vals : List String) (hk : k ≠ emailId) :
    (invalidateCache (some cm) emailId).1 = true ∧
    (invalidateCache none emailId).1 = false ∧
    ((invalidateCache (some cm) emailId).2.map fun c => c k) = some (cm k) ∧
    getCacheData (invalidateCache (some cm) emailId).2 emailId resource action
      = none ∧
    (enforceByEmailInBatch enf b (invalidateCache (some cm) emailId).2
        emailId resource action vals).remaining = vals ∧
    (enforceByEmailInBatch enf b (invalidateCache (some cm) emailId).2
        emailId resource action vals).dispatched
      = clampBatchSize b vals.length := by
  refine ⟨rfl, rfl, ?_, ?_, ?_, ?_⟩
  · simp [invalidateCache, hk]
  · simp [invalidateCache, getCacheData]
  · simp [invalidateCache, enforceByEmailInBatch, getCacheData]
  · simp [invalidateCache, enforceByEmailInBatch, getCacheData]

theorem invalidateCache_spec_witness :
    (invalidateCache (some fun _ => none) "alice").1 = true ∧
    (invalidateCache none "alice").1 = false ∧
    ((invalidateCache (some fun _ => none) "alice").2.map fun c => c "bob")
      = some ((fun (_ : String) => (none : Option EmailCacheVal)) "bob") ∧
    getCacheData (invalidateCache (some fun _ => none) "alice").2
      "alice" "app" "view" = none ∧
    (enforceByEmailInBatch (fun _ _ _ _ => true) 2
        (invalidateCache (some fun _ => none) "alice").2
        "alice" "app" "view" ["x"]).remaining = ["x"] ∧
    (enforceByEmailInBatch (fun _ _ _ _ => true) 2
        (invalidateCache (some fun _ => none) "alice").2
        "alice" "app" "view" ["x"]).dispatched
      = clampBatchSize 2 ["x"].length :=
  invalidateCache_spec (fun _ => none) "alice" "bob" "app" "view"
    (fun _ _ _ _ => true) 2 ["x"] (by decide)

/-! ## Claim C8: EnforceErr -/

/-- Claim C8: `EnforceErr` returns nil exactly when `Enforce` returns true;
a denial with a non-empty argument list yields a permission-denied error
whose message is `"permission denied: "` followed by the comma-joined
arguments after the first, and a denial with no arguments yields the
message `"permission denied"`. -/
theorem enforceErr_spec {C M : Type} (verifyToken : String → Option C)
    (mapClaims : C → Option M) (getField : M → String → String)
    (engine : List String → Bool) (rvals : List String) :
    (enforceErr verifyToken mapClaims getField engine rvals = none ↔
      enforce verifyToken mapClaims getField engine rvals = true) ∧
    (enforce verifyToken mapClaims getField engine rvals = false →
      rvals ≠ [] →
      enforceErr verifyToken mapClaims getField engine rvals =
        some ("permission denied: " ++ String.intercalate ", " (rvals.drop 1))) ∧
    (enforce verifyToken mapClaims getField engine rvals = false →
      rvals = [] →
      enforceErr verifyToken mapClaims getField engine rvals =
        some "permission denied") := by
  refine ⟨?_, ?_, ?_⟩
  · by_cases h : enforce verifyToken mapClaims getField engine rvals
    · simp [enforceErr, h]
    · simp [enforceErr, h]
  · intro h hne
    have hlen : rvals.length > 0 := List.length_pos.mpr hne
    simp only [enforceErr, h, Bool.false_eq_true, if_false, if_pos hlen]
    rfl
  · intro h he
    subst he
    simp [enforceErr, h]

/-! ## Claim C5: deny-by-default single-decision evaluation -/

/-- Claim C5: `enforce` returns false without invoking the policy engine
when the argument list is empty, token verification fails, or claims
extraction fails; when all succeed, the first argument handed to the engine
is the lower-cased email, with the fixed identity `admin` substituted when
the email claim is empty and the sub claim is `admin` or `admin:login`.
(The Lean model is a total function: no error or panic reaches the
caller.) -/
theorem enforce_denyByDefault {C M : Type} (verifyToken : String → Option C)
    (mapClaims : C → Option M) (getField : M → String → String)
    (engine : List String → Bool) (rvals : List String) :
    (rvals = [] → enforceEngineArgs verifyToken mapClaims getField rvals = none) ∧
    (∀ r0 rest, rvals = r0 :: rest → verifyToken r0 = none →
      enforceEngineArgs verifyToken mapClaims getField rvals = none) ∧
    (∀ r0 rest c, rvals = r0 :: rest → verifyToken r0 = some c →
      mapClaims c = none →
      enforceEngineArgs verifyToken mapClaims getField rvals = none) ∧
    (enforceEngineArgs verifyToken mapClaims getField rvals = none →
      enforce verifyToken mapClaims getField engine rvals = false) ∧
    (∀ r0 rest c m, rvals = r0 :: rest → verifyToken r0 = some c →
      mapClaims c = some m →
      enforce verifyToken mapClaims getField engine rvals =
        engine ((if getField m "email" = "" ∧
                    (getField m "sub" = "admin" ∨ getField m "sub" = "admin:login")
                 then "admin" else getField m "email").toLower :: rest)) := by
  refine ⟨?_, ?_, ?_, ?_, ?_⟩
  · intro h; subst h; rfl
  · intro r0 rest h hv; subst h; simp [enforceEngineArgs, hv]
  · intro r0 rest c h hv hm; subst h; simp [enforceEngineArgs, hv, hm]
  · intro h; simp [enforce, h]
  · intro r0 rest c m h hv hm; subst h
    simp [enforce, enforceEngineArgs, hv, hm]

/-! ## Claim C10: batch size zero -/

/-- Claim C10: the default batch size is substituted only when the
environment value fails to parse; when it parses to `0`, a batch call over
uncached items dispatches zero workers and returns a mapping with no
decision for any requested item. -/
theorem batchSizeZero_spec (d : Nat)
    (enf : String → String → String → String → Bool) (c : Option CacheMap)
    (emailId resource action : String) (vals : List String)
    (hne : vals ≠ [])
    (hunc : ∀ x ∈ vals,
      (getCacheData c emailId resource action).elim True fun m => m x = none) :
    (∀ v, resolveBatchSize (some v) d = v) ∧
    resolveBatchSize none d = d ∧
    (enforceByEmailInBatch enf (resolveBatchSize (some 0) d) c
        emailId resource action vals).dispatched = 0 ∧
    ∀ x ∈ vals,
      (enforceByEmailInBatch enf (resolveBatchSize (some 0) d) c
        emailId resource action vals).result x = none := by
  have hclamp : ∀ t, clampBatchSize 0 t = 0 := by
    intro t; simp [clampBatchSize]
  refine ⟨fun v => rfl, rfl, ?_, ?_⟩
  · simp only [enforceByEmailInBatch, resolveBatchSize, hclamp, runShards,
      List.range_zero, List.foldl_nil]
  · intro x hx
    simp only [enforceByEmailInBatch, resolveBatchSize, hclamp, runShards,
      List.range_zero, List.foldl_nil]
    have := hunc x hx
    cases hc : getCacheData c emailId resource action with
    | none => simp [hc]
    | some m =>
      rw [hc] at this
      simpa [hc] using this

theorem batchSizeZero_spec_witness :
    (∀ v, resolveBatchSize (some v) 7 = v) ∧
    resolveBatchSize none 7 = 7 ∧
    (enforceByEmailInBatch (fun _ _ _ _ => true) (resolveBatchSize (some 0) 7)
        (some fun _ => none) "alice" "app" "view" ["x", "y"]).dispatched = 0 ∧
    ∀ x ∈ ["x", "y"],
      (enforceByEmailInBatch (fun _ _ _ _ => true) (resolveBatchSize (some 0) 7)
        (some fun _ => none) "alice" "app" "view" ["x", "y"]).result x = none :=
  batchSizeZero_spec 7 (fun _ _ _ _ => true) (some fun _ => none)
    "alice" "app" "view" ["x", "y"] (by decide)
    (by intro x hx; simp [getCacheData])

/-! ## Claim C3: the matcher agrees with its specification -/

theorem matchSegment_eq_true (p q : List Char) :
    matchSegment p q = true ↔ p ≠ [] ∧ q ≠ [] ∧ specSegOk p q := by
  unfold matchSegment specSegOk
  by_cases hq : q = []
  · simp [hq]
  · by_cases hp : p = []
    · simp [hp, hq]
    · have hcond : ¬(q = [] ∨ p = []) := by simp [hp, hq]
      rw [if_neg hcond]
      cases h : q.findIdx? (fun c => c = '*') with
      | none => simp [hp, hq, decide_eq_true_eq]
      | some j =>
        by_cases hl : p.length > j
        · simp [hp, hq, hl, decide_eq_true_eq]
        · simp [hp, hq, hl, decide_eq_true_eq]

theorem zipAll_segments (l1 l2 : List (List Char)) (h : l1.length = l2.length) :
    ((l1.zip l2).all fun pq => matchSegment pq.1 pq.2) = true ↔
      (∀ s ∈ l1, s ≠ []) ∧ (∀ s ∈ l2, s ≠ []) ∧
      ∀ i (h1 : i < l1.length) (h2 : i < l2.length),
        specSegOk (l1.get ⟨i, h1⟩) (l2.get ⟨i, h2⟩) := by
  rw [List.all_eq_true]
  have hzlen : (l1.zip l2).length = l1.length := by
    rw [List.length_zip, h, min_self]
  constructor
  · intro ha
    have hseg : ∀ i (h1 : i < l1.length) (h2 : i < l2.length),
        matchSegment l1[i] l2[i] = true := by
      intro i h1 h2
      have hmem : (l1[i], l2[i]) ∈ l1.zip l2 := by
        rw [List.mem_iff_getElem]
        exact ⟨i, by omega, List.getElem_zip⟩
      exact ha _ hmem
    refine ⟨?_, ?_, ?_⟩
    · intro s hs
      obtain ⟨i, hi, rfl⟩ := List.mem_iff_getElem.mp hs
      exact ((matchSegment_eq_true _ _).mp (hseg i hi (h ▸ hi))).1
    · intro s hs
      obtain ⟨i, hi, rfl⟩ := List.mem_iff_getElem.mp hs
      exact ((matchSegment_eq_true _ _).mp (hseg i (h ▸ hi) hi)).2.1
    · intro i h1 h2
      simpa [List.get_eq_getElem] using
        ((matchSegment_eq_true _ _).mp (hseg i h1 h2)).2.2
  · rintro ⟨hne1, hne2, hok⟩ x hx
    obtain ⟨i, hi, rfl⟩ := List.mem_iff_getElem.mp hx
    have h1 : i < l1.length := by omega
    have h2 : i < l2.length := by omega
    rw [List.getElem_zip]
    exact (matchSegment_eq_true _ _).mpr
      ⟨hne1 _ (List.getElem_mem h1), hne2 _ (List.getElem_mem h2),
       by simpa [List.get_eq_getElem] using hok i h1 h2⟩

/-- Claim C3: `MatchKeyByPart(path, pattern)` returns true exactly under
the specification's conditions (pattern is `"*"`, or equal segment counts,
no empty segment on either side, and every segment pair passes the
wildcard-prefix check), together with the four quoted examples. -/
theorem matchKeyByPart_correct :
    (∀ k1 k2, MatchKeyByPart k1 k2 = true ↔ matchKeyByPartSpec k1 k2) ∧
    MatchKeyByPart "a/b/c" "a/*/c" = true ∧
    MatchKeyByPart "a/b/c" "a/*/d" = false ∧
    MatchKeyByPart "a/b" "a/b/c" = false ∧
    MatchKeyByPart "a//c" "a/*/c" = false := by
  refine ⟨?_, by decide, by decide, by decide, by decide⟩
  intro k1 k2
  unfold MatchKeyByPart matchKeyByPartSpec
  by_cases hstar : k2 = "*"
  · simp [hstar]
  · rw [if_neg hstar]
    by_cases hlen :
        (splitSeg k1.toList).length = (splitSeg k2.toList).length
    · have h0 : (splitSeg k1.toList).length ≠ 0 := by
        simpa [List.length_eq_zero] using splitSeg_ne_nil k1.toList
      have hcond :
          ¬((splitSeg k1.toList).length ≠ (splitSeg k2.toList).length ∨
            (splitSeg k1.toList).length = 0) := by
        push_neg
        exact ⟨hlen, h0⟩
      rw [if_neg hcond, zipAll_segments _ _ hlen]
      constructor
      · rintro ⟨ha, hb, hc⟩
        exact Or.inr ⟨hlen, ha, hb, hc⟩
      · rintro (h | ⟨_, ha, hb, hc⟩)
        · exact absurd h hstar
        · exact ⟨ha, hb, hc⟩
    · have hcond :
          ((splitSeg k1.toList).length ≠ (splitSeg k2.toList).length ∨
            (splitSeg k1.toList).length = 0) := Or.inl hlen
      rw [if_pos hcond]
      simp only [Bool.false_eq_true, false_iff]
      rintro (h | ⟨h, _⟩)
      · exact hstar h
      · exact hlen h

/-! ## Shard-range arithmetic (claim C1) -/

instance (total n i k : Nat) : Decidable (inShard total n i k) := by
  unfold inShard; infer_instance

theorem div_add_div_le (a b n : Nat) : a / n + b / n ≤ (a + b) / n := by
  rcases Nat.eq_zero_or_pos n with h | h
  · subst h; simp
  · rw [Nat.le_div_iff_mul_le h, Nat.add_mul]
    exact Nat.add_le_add (Nat.div_mul_le_self a n) (Nat.div_mul_le_self b n)

theorem shardStart_mono (total n : Nat) {i j : Nat} (h : i ≤ j) :
    shardStart total n i ≤ shardStart total n j :=
  Nat.div_le_div_right (Nat.mul_le_mul_right total h)

theorem shardStart_add_div_le (total n i : Nat) :
    shardStart total n i + total / n ≤ shardStart total n (i + 1) := by
  have h := div_add_div_le (i * total) total n
  have he : (i + 1) * total = i * total + total := by ring
  unfold shardStart
  rw [he]
  exact h

theorem shardStart_le_total (total n : Nat) {i : Nat} (hn : 0 < n)
    (hi : i ≤ n) : shardStart total n i ≤ total := by
  have h2 : i * total / n ≤ n * total / n :=
    Nat.div_le_div_right (Nat.mul_le_mul_right total hi)
  rwa [Nat.mul_div_cancel_left total hn] at h2

theorem shardEnd_eq (total n : Nat) (hn : 0 < n) {i : Nat} (hi : i < n) :
    shardEnd total n i = shardStart total n i + total / n := by
  apply min_eq_left
  calc shardStart total n i + total / n
      ≤ shardStart total n (i + 1) := shardStart_add_div_le total n i
    _ ≤ total := shardStart_le_total total n hn hi

theorem shardEnd_le_shardStart (total n : Nat) {i j : Nat} (hij : i < j) :
    shardEnd total n i ≤ shardStart total n j :=
  min_le_of_left_le
    (le_trans (shardStart_add_div_le total n i) (shardStart_mono total n hij))

theorem shard_disjoint (total n : Nat) {i j k : Nat}
    (hi : inShard total n i k) (hj : inShard total n j k) : i = j := by
  obtain ⟨hi1, hi2⟩ := hi
  obtain ⟨hj1, hj2⟩ := hj
  by_contra hne
  rcases Nat.lt_or_ge i j with h | h
  · have := shardEnd_le_shardStart total n h
    omega
  · have hji : j < i := by omega
    have := shardEnd_le_shardStart total n hji
    omega

theorem lastShard_lt_total (total n : Nat) (hn : 0 < n) (hnd : ¬ n ∣ total) :
    (n - 1) * total / n + total / n < total := by
  set q := total / n with hq
  set r := total % n with hr
  have hr0 : 0 < r := by
    rcases Nat.eq_zero_or_pos r with h | h
    · exact absurd (Nat.dvd_of_mod_eq_zero (hr ▸ h)) hnd
    · exact h
  have hrn : r < n := Nat.mod_lt _ hn
  have ht : n * q + r = total := Nat.div_add_mod total n
  have h1n : 1 ≤ n := hn
  have h1r : 1 ≤ r := hr0
  have hrn' : r ≤ n := le_of_lt hrn
  have ht' : (n : ℤ) * (q : ℤ) + (r : ℤ) = (total : ℤ) := by exact_mod_cast ht
  have hkey : (n - 1) * total = (n - r) + n * ((n - 1) * q + (r - 1)) := by
    zify [h1n, h1r, hrn']
    rw [← ht']
    ring
  have hdiv : (n - 1) * total / n = (n - 1) * q + (r - 1) := by
    rw [hkey, Nat.add_mul_div_left _ _ hn, Nat.div_eq_of_lt (by omega)]
    omega
  have hmul : (n - 1) * q + q = n * q := by
    cases n with
    | zero => omega
    | succ m =>
      simp only [Nat.succ_sub_one]
      ring
  rw [hdiv]
  omega

theorem coverage_of_dvd (total n : Nat) (hn : 0 < n) (hd : n ∣ total) :
    ∀ k, k < total → ∃ i, i < n ∧ inShard total n i k := by
  obtain ⟨q, rfl⟩ := hd
  intro k hk
  have hq : 0 < q := by
    rcases Nat.eq_zero_or_pos q with h | h
    · subst h; simp at hk
    · exact h
  have hiq : k / q < n := (Nat.div_lt_iff_lt_mul hq).mpr hk
  have hstart : shardStart (n * q) n (k / q) = k / q * q := by
    unfold shardStart
    rw [show k / q * (n * q) = n * (k / q * q) by ring]
    exact Nat.mul_div_cancel_left _ hn
  have hqdiv : n * q / n = q := Nat.mul_div_cancel_left q hn
  have hend : shardEnd (n * q) n (k / q) = k / q * q + q := by
    rw [shardEnd, hstart, hqdiv]
    apply min_eq_left
    have : (k / q + 1) * q ≤ n * q := Nat.mul_le_mul_right q hiq
    calc k / q * q + q = (k / q + 1) * q := by ring
      _ ≤ n * q := this
  refine ⟨k / q, hiq, ?_, ?_⟩
  · rw [hstart]; exact Nat.div_mul_le_self k q
  · rw [hend]
    have hmod := Nat.div_add_mod k q
    have hlt := Nat.mod_lt k hq
    have hcomm : q * (k / q) = k / q * q := mul_comm _ _
    omega

theorem notCoverage_of_not_dvd (total n : Nat) (hn : 0 < n)
    (hnd : ¬ n ∣ total) :
    ¬ ∀ k, k < total → ∃ i, i < n ∧ inShard total n i k := by
  intro hcov
  have htpos : 0 < total := by
    rcases Nat.eq_zero_or_pos total with h | h
    · exact absurd (h ▸ Nat.dvd_zero n) hnd
    · exact h
  obtain ⟨i, hi, hs, he⟩ := hcov (total - 1) (by omega)
  have h1 : shardEnd total n i ≤ shardStart total n i + total / n :=
    min_le_left _ _
  have h2 : shardStart total n i ≤ shardStart total n (n - 1) :=
    shardStart_mono total n (by omega)
  have h3 := lastShard_lt_total total n hn hnd
  have h4 : shardStart total n (n - 1) = (n - 1) * total / n := rfl
  omega

/-- Claim C1 (amended): with shard count `n = min(maxBatch, total) > 0` the
shard ranges all have size exactly `total / n` (so sizes differ by at most
one element) and are pairwise disjoint, but their union covers every index
of `[0, total)` exactly once if and only if `n` divides `total`; when `n`
does not divide `total` some requested uncached items receive no decision
in the mapping returned by `EnforceByEmailInBatch`. -/
theorem shardPartition_amended (b total n : Nat)
    (hn : n = clampBatchSize b total) (hpos : 0 < n) :
    (∀ i, i < n → shardEnd total n i = shardStart total n i + total / n) ∧
    (∀ i j k, inShard total n i k → inShard total n j k → i = j) ∧
    ((∀ k, k < total → ∃ i, i < n ∧ inShard total n i k) ↔ n ∣ total) := by
  refine ⟨fun i hi => shardEnd_eq total n hpos hi,
    fun i j k hi hj => shard_disjoint total n hi hj, ?_, ?_⟩
  · intro hcov
    by_contra hnd
    exact notCoverage_of_not_dvd total n hpos hnd hcov
  · intro hd
    exact coverage_of_dvd total n hpos hd

theorem shardPartition_amended_witness :
    (∀ i, i < 3 → shardEnd 6 3 i = shardStart 6 3 i + 6 / 3) ∧
    (∀ i j k, inShard 6 3 i k → inShard 6 3 j k → i = j) ∧
    ((∀ k, k < 6 → ∃ i, i < 3 ∧ inShard 6 3 i k) ↔ 3 ∣ 6) :=
  shardPartition_amended 3 6 3 (by decide) (by decide)

/-- Claim C1 fails as stated: with 5 requested uncached items and
configured max batch size 3 the shard count is `n = min(3, 5) = 3 > 0`,
yet index 2 of `[0, 5)` lies in no shard range, and the third item `"c"`
receives no decision in the mapping `EnforceByEmailInBatch` returns. -/
theorem shardPartition_counterexample :
    clampBatchSize 3 5 = 3 ∧
    ¬ (∀ k, k < 5 → ∃ i, i < 3 ∧ inShard 5 3 i k) ∧
    (enforceByEmailInBatch (fun _ _ _ _ => true) 3 (some fun _ => none)
      "alice" "app" "view" ["a", "b", "c", "d", "e"]).result "c" = none := by
  refine ⟨by decide, by decide, by decide⟩

/-! ## Worker and batch behaviour (claims C2 and C4) -/

theorem sync_apply (enf : String → String → String → String → Bool)
    (emailId resource action : String) (shard : List String) (m : ItemMap)
    (v : String) :
    enforceByEmailInBatchSync enf emailId resource action shard m v =
      if v ∈ shard then some (enf emailId.toLower resource action v)
      else m v := by
  induction shard generalizing m with
  | nil => simp [enforceByEmailInBatchSync]
  | cons x xs ih =>
    have hstep :
        enforceByEmailInBatchSync enf emailId resource action (x :: xs) m =
          enforceByEmailInBatchSync enf emailId resource action xs
            (updateItem m x (enf emailId.toLower resource action x)) := rfl
    rw [hstep, ih]
    by_cases hv : v ∈ xs
    · simp [hv]
    · by_cases hx : v = x
      · subst hx; simp [hv, updateItem]
      · simp [hv, hx, updateItem]

theorem foldShards_apply (enf : String → String → String → String → Bool)
    (emailId resource action : String) (vals : List String) (n : Nat)
    (is : List Nat) (m : ItemMap) (v : String) :
    (is.foldl (fun acc i =>
        enforceByEmailInBatchSync enf emailId resource action
          (shardSlice vals n i) acc) m) v =
      if ∃ i ∈ is, v ∈ shardSlice vals n i then
        some (enf emailId.toLower resource action v)
      else m v := by
  induction is generalizing m with
  | nil => simp
  | cons i is ih =>
    rw [List.foldl_cons, ih, sync_apply]
    by_cases h1 : ∃ j ∈ is, v ∈ shardSlice vals n j
    · simp [h1]
    · by_cases h2 : v ∈ shardSlice vals n i
      · simp [h1, h2]
      · simp [h1, h2]

theorem runShards_apply (enf : String → String → String → String → Bool)
    (emailId resource action : String) (vals : List String) (n : Nat)
    (m : ItemMap) (v : String) :
    runShards enf emailId resource action vals n m v =
      if ∃ i, i < n ∧ v ∈ shardSlice vals n i then
        some (enf emailId.toLower resource action v)
      else m v := by
  unfold runShards
  rw [foldShards_apply]
  simp only [List.mem_range]

theorem shardSlice_singleton (vals : List String) {i : Nat}
    (hi : i < vals.length) :
    shardSlice vals vals.length i = [vals[i]] := by
  have hpos : 0 < vals.length := by omega
  have hs : shardStart vals.length vals.length i = i := by
    unfold shardStart
    exact Nat.mul_div_cancel i hpos
  have hq : vals.length / vals.length = 1 := Nat.div_self hpos
  have he : shardEnd vals.length vals.length i = i + 1 := by
    unfold shardEnd
    rw [hs, hq]
    exact min_eq_left (by omega)
  unfold shardSlice
  rw [hs, he, show i + 1 - i = 1 by omega, List.drop_eq_getElem_cons hi]
  rfl

theorem runShards_full_isSome (enf : String → String → String → String → Bool)
    (emailId resource action : String) (R : List String) (m : ItemMap)
    (v : String) (h : (m v).isSome = true ∨ v ∈ R) :
    ((runShards enf emailId resource action R R.length m) v).isSome = true := by
  rw [runShards_apply]
  rcases h with h | h
  · split <;> simp [h]
  · obtain ⟨i, hi, rfl⟩ := List.mem_iff_getElem.mp h
    have hex : ∃ j, j < R.length ∧ R[i] ∈ shardSlice R R.length j :=
      ⟨i, hi, by rw [shardSlice_singleton R hi]; simp⟩
    simp [hex]

theorem batch_covers (enf : String → String → String → String → Bool)
    (b : Nat) (c : Option CacheMap) (emailId resource action : String)
    (vals : List String) (hb : vals.length ≤ b) :
    ∀ v ∈ vals,
      ((enforceByEmailInBatch enf b c emailId resource action vals).result v).isSome
        = true := by
  intro v hv
  cases hc : getCacheData c emailId resource action with
  | none =>
    have hres : (enforceByEmailInBatch enf b c emailId resource action vals).result
        = runShards enf emailId resource action vals
            (clampBatchSize b vals.length) (fun _ => none) := by
      simp [enforceByEmailInBatch, hc]
    have hn : clampBatchSize b vals.length = vals.length := by
      unfold clampBatchSize; split <;> omega
    rw [hres, hn]
    exact runShards_full_isSome enf emailId resource action vals _ v (Or.inr hv)
  | some m =>
    have hres : (enforceByEmailInBatch enf b c emailId resource action vals).result
        = runShards enf emailId resource action
            (vals.filter fun item => (m item).isNone)
            (clampBatchSize b (vals.filter fun item => (m item).isNone).length)
            m := by
      simp [enforceByEmailInBatch, hc]
    have hlen : (vals.filter fun item => (m item).isNone).length ≤ b :=
      le_trans (List.length_filter_le _ _) hb
    have hn : clampBatchSize b (vals.filter fun item => (m item).isNone).length
        = (vals.filter fun item => (m item).isNone).length := by
      unfold clampBatchSize; split <;> omega
    rw [hres, hn]
    apply runShards_full_isSome
    by_cases hm : (m v).isSome = true
    · exact Or.inl hm
    · refine Or.inr (List.mem_filter.mpr ⟨hv, ?_⟩)
      rw [Option.not_isSome_iff_eq_none] at hm
      simp [hm]

theorem getCacheData_store (cm : CacheMap) (emailId resource action : String)
    (res : ItemMap) :
    getCacheData (storeCacheData (some cm) emailId resource action res)
      emailId resource action = some res := by
  simp [getCacheData, storeCacheData]

theorem getCacheData_store_other (c : Option CacheMap)
    (emailId k resource action r2 a2 : String) (res : ItemMap)
    (hk : k ≠ emailId) :
    getCacheData (storeCacheData c emailId resource action res) k r2 a2 =
      getCacheData c k r2 a2 := by
  cases c with
  | none => rfl
  | some cm => simp [getCacheData, storeCacheData, hk]

theorem batch_secondCall (enf : String → String → String → String → Bool)
    (b : Nat) (c : Option CacheMap) (emailId resource action : String)
    (vals : List String) (res : ItemMap)
    (hget : getCacheData c emailId resource action = some res)
    (hall : ∀ v ∈ vals, (res v).isSome = true) :
    (enforceByEmailInBatch enf b c emailId resource action vals).result = res ∧
    (enforceByEmailInBatch enf b c emailId resource action vals).remaining = [] ∧
    (enforceByEmailInBatch enf b c emailId resource action vals).dispatched = 0 := by
  have hrem : (vals.filter fun item => (res item).isNone) = [] := by
    rw [List.filter_eq_nil_iff]
    intro a ha h
    have hs := hall a ha
    rw [Option.isNone_iff_eq_none] at h
    rw [h] at hs
    simp at hs
  have hc0 : clampBatchSize b 0 = 0 := by
    unfold clampBatchSize; split <;> omega
  refine ⟨?_, ?_, ?_⟩ <;>
    simp [enforceByEmailInBatch, hget, hrem, hc0, runShards]

/-! ## Claim C2: lock and cache keys are not normalized -/

/-- Claim C2 fails as stated: the lock-table key for `"Alice"` is
`"Alice"` itself, not the lower-cased identity, so two calls differing only
in letter case use different lock handles; likewise a batch call for
`"Alice"` populates a cache entry that a lookup under `"alice"` does not
see. -/
theorem lockKey_counterexample :
    getLockKey "Alice" = "Alice" ∧
    getLockKey "Alice" ≠ getLockKey "alice" ∧
    ((getCacheData (enforceByEmailInBatch (fun _ _ _ _ => true) 4
        (some fun _ => none) "Alice" "app" "view" ["x"]).cache
        "Alice" "app" "view").isSome = true) ∧
    ((getCacheData (enforceByEmailInBatch (fun _ _ _ _ => true) 4
        (some fun _ => none) "Alice" "app" "view" ["x"]).cache
        "alice" "app" "view").isNone = true) := by
  refine ⟨by decide, by decide, by decide, by decide⟩

/-- Claim C2 (amended): the key of the lock table and of the result cache
is the emailId exactly as passed, with no case normalization — a batch call
for one identity leaves every differently-spelled identity's cache entry
untouched — and only the identity the worker forwards to the per-item
policy check is lower-cased. -/
theorem lockKey_amended (emailId k resource action r2 a2 : String)
    (enf : String → String → String → String → Bool) (b : Nat)
    (cm : CacheMap) (vals shard : List String) (m : ItemMap)
    (hk : k ≠ emailId) :
    getLockKey emailId = emailId ∧
    getCacheData
        (enforceByEmailInBatch enf b (some cm) emailId resource action vals).cache
        k r2 a2
      = getCacheData (some cm) k r2 a2 ∧
    ∀ item ∈ shard,
      enforceByEmailInBatchSync enf emailId resource action shard m item
        = some (enf emailId.toLower resource action item) := by
  refine ⟨rfl, ?_, ?_⟩
  · exact getCacheData_store_other (some cm) emailId k resource action r2 a2 _ hk
  · intro item hitem
    rw [sync_apply]
    simp [hitem]

theorem lockKey_amended_witness :
    getLockKey "Alice" = "Alice" ∧
    getCacheData
        (enforceByEmailInBatch (fun _ _ _ _ => true) 4 (some fun _ => none)
          "Alice" "app" "view" ["x"]).cache
        "alice" "app" "view"
      = getCacheData (some fun _ => none) "alice" "app" "view" ∧
    ∀ item ∈ ["x"],
      enforceByEmailInBatchSync (fun _ _ _ _ => true) "Alice" "app" "view"
          ["x"] (fun _ => none) item
        = some ((fun _ _ _ _ => true) "Alice".toLower "app" "view" item) :=
  lockKey_amended "Alice" "alice" "app" "view" "app" "view"
    (fun _ _ _ _ => true) 4 (fun _ => none) ["x"] ["x"] (fun _ => none)
    (by decide)

/-! ## Claim C4: cache idempotence -/

/-- Claim C4 fails as stated: with the cache enabled and empty, batch size
3 and five requested items, the first call's mapping has no decision for
item `"c"` while the second call's does (the two mappings differ), and the
second call dispatches 2 workers rather than zero. -/
theorem batchIdempotent_counterexample :
    (enforceByEmailInBatch (fun _ _ _ _ => true) 3 (some fun _ => none)
      "alice" "app" "view" ["a", "b", "c", "d", "e"]).result "c" = none ∧
    (enforceByEmailInBatch (fun _ _ _ _ => true) 3
      (enforceByEmailInBatch (fun _ _ _ _ => true) 3 (some fun _ => none)
        "alice" "app" "view" ["a", "b", "c", "d", "e"]).cache
      "alice" "app" "view" ["a", "b", "c", "d", "e"]).result "c" = some true ∧
    (enforceByEmailInBatch (fun _ _ _ _ => true) 3
      (enforceByEmailInBatch (fun _ _ _ _ => true) 3 (some fun _ => none)
        "alice" "app" "view" ["a", "b", "c", "d", "e"]).cache
      "alice" "app" "view" ["a", "b", "c", "d", "e"]).dispatched = 2 := by
  refine ⟨by decide, by decide, by decide⟩

/-- Claim C4 (amended): when the cache is enabled and the configured batch
size is at least the number of requested items (so the shard count equals
the remaining total and every remaining item is evaluated), calling
`EnforceByEmailInBatch` twice with identical arguments and no invalidation
in between returns the same mapping on both calls, and the second call
finds every item in the cache, leaves zero remaining items, dispatches zero
workers, and computes its average-latency metric through the
`batchSize > 0` guard without dividing. -/
theorem batchIdempotent_amended (enf : String → String → String → String → Bool)
    (b : Nat) (cm : CacheMap) (emailId resource action : String)
    (vals : List String) (hb : vals.length ≤ b) :
    (enforceByEmailInBatch enf b
        (enforceByEmailInBatch enf b (some cm) emailId resource action vals).cache
        emailId resource action vals).result
      = (enforceByEmailInBatch enf b (some cm) emailId resource action vals).result ∧
    (enforceByEmailInBatch enf b
        (enforceByEmailInBatch enf b (some cm) emailId resource action vals).cache
        emailId resource action vals).remaining = [] ∧
    (enforceByEmailInBatch enf b
        (enforceByEmailInBatch enf b (some cm) emailId resource action vals).cache
        emailId resource action vals).dispatched = 0 ∧
    ∀ tg : Int,
      avgTimegapCalc tg
        (enforceByEmailInBatch enf b
          (enforceByEmailInBatch enf b (some cm) emailId resource action vals).cache
          emailId resource action vals).dispatched = 0 := by
  have hget : getCacheData
      (enforceByEmailInBatch enf b (some cm) emailId resource action vals).cache
      emailId resource action
      = some (enforceByEmailInBatch enf b (some cm) emailId resource action vals).result :=
    getCacheData_store cm emailId resource action _
  have hall := batch_covers enf b (some cm) emailId resource action vals hb
  obtain ⟨h1, h2, h3⟩ :=
    batch_secondCall enf b _ emailId resource action vals _ hget hall
  refine ⟨h1, h2, h3, ?_⟩
  intro tg
  rw [h3]
  rfl

theorem batchIdempotent_amended_witness :
    (enforceByEmailInBatch (fun _ _ _ _ => false) 5
        (enforceByEmailInBatch (fun _ _ _ _ => false) 5 (some fun _ => none)
          "alice" "app" "view" ["x", "y"]).cache
        "alice" "app" "view" ["x", "y"]).result
      = (enforceByEmailInBatch (fun _ _ _ _ => false) 5 (some fun _ => none)
          "alice" "app" "view" ["x", "y"]).result ∧
    (enforceByEmailInBatch (fun _ _ _ _ => false) 5
        (enforceByEmailInBatch (fun _ _ _ _ => false) 5 (some fun _ => none)
          "alice" "app" "view" ["x", "y"]).cache
        "alice" "app" "view" ["x", "y"]).remaining = [] ∧
    (enforceByEmailInBatch (fun _ _ _ _ => false) 5
        (enforceByEmailInBatch (fun _ _ _ _ => false) 5 (some fun _ => none)
          "alice" "app" "view" ["x", "y"]).cache
        "alice" "app" "view" ["x", "y"]).dispatched = 0 ∧
    ∀ tg : Int,
      avgTimegapCalc tg
        (enforceByEmailInBatch (fun _ _ _ _ => false) 5
          (enforceByEmailInBatch (fun _ _ _ _ => false) 5 (some fun _ => none)
            "alice" "app" "view" ["x", "y"]).cache
          "alice" "app" "view" ["x", "y"]).dispatched = 0 :=
  batchIdempotent_amended (fun _ _ _ _ => false) 5 (fun _ => none)
    "alice" "app" "view" ["x", "y"] (by decide)

end DevtronCasbin
